import Mathlib

/-!
Verification of the NURBS utility core (`nurbs/utilities.py`).

The Python functions are shallowly embedded over exact rational arithmetic
(`ℚ` in place of Python floats): the algorithms are pure field arithmetic,
so their algebraic structure is preserved exactly.  Knot vectors are
`List ℚ`; Python list indexing `kv[i]` on indices that the stated
hypotheses keep in range is embedded as `kv.getD i 0`.  Fallible
operations (a `ValueError`, a `ZeroDivisionError`, or an `IndexError`
raised by an out-of-range list write) are embedded in `Option`: `none`
is the raised exception.

Source: `src/nurbs/utilities.py`.
-/

set_option autoImplicit false

namespace NurbsUtil

/-- Embedding of `normalize_knotvector` (utilities.py lines 19-30).
An empty sequence is returned unchanged.  Otherwise every knot `k` is
rescaled to `(k - first) / (last - first)`; Python raises
`ZeroDivisionError` when `last - first == 0` (first loop iteration),
which the embedding models as `none`. -/
def normalize_knotvector (kv : List ℚ) : Option (List ℚ) :=
  if kv.length = 0 then some kv
  else
    let first_knot := kv.getD 0 0
    let last_knot := kv.getD (kv.length - 1) 0
    if last_knot - first_knot = 0 then none
    else some (kv.map (fun k => (k - first_knot) / (last_knot - first_knot)))

/-- The middle-knot loop of `autogen_knotvector` (lines 58-62): starting
from `midknot`, append the current value and advance by `spacing`,
`c` times. -/
def midKnots (spacing : ℚ) : ℚ → ℕ → List ℚ
  | _, 0 => []
  | midknot, c + 1 => midknot :: midKnots spacing (midknot + spacing) c

/-- Embedding of `autogen_knotvector` (lines 33-70).
`none` models the `ValueError` on a zero argument and the
`ZeroDivisionError` in `spacing = (knot_max - knot_min) / num_segments`
when `num_segments == 0`.  The three `while` loops append, in order,
`degree+1` copies of `knot_min = 0`, then middle knots while
`i < m-(degree+1)` (the counter `i` starts this loop at `degree+1`,
so `(m-(degree+1))-(degree+1)` truncated at zero iterations), then
copies of `knot_max = 1` while `i < m`. -/
def autogen_knotvector (degree num_ctrlpts : ℕ) : Option (List ℚ) :=
  if degree = 0 ∨ num_ctrlpts = 0 then none
  else
    let m := degree + num_ctrlpts + 1
    let num_segments : ℤ := (m : ℤ) - ((degree : ℤ) + 1) * 2 + 1
    if num_segments = 0 then none
    else
      let spacing : ℚ := (1 - 0) / (num_segments : ℚ)
      let middleCount := (m - (degree + 1)) - (degree + 1)
      some (List.replicate (degree + 1) (0 : ℚ) ++
        midKnots spacing (0 + spacing) middleCount ++
        List.replicate (m - ((degree + 1) + middleCount)) (1 : ℚ))

/-- The binary-search loop of `find_span` (lines 83-93), with explicit
fuel: the Python `while` loop has no built-in bound, and `none` models
an infinite loop (never reached under the documented preconditions).
Each iteration tests `knotvector[mid] <= knot < knotvector[mid+1]`
for `mid = (low + high) / 2` (integer division) and otherwise halves
the bracket exactly as the source does. -/
def findSpanLoop (kv : List ℚ) (knot : ℚ) : ℕ → ℕ → ℕ → Option ℕ
  | 0, _, _ => none
  | fuel + 1, low, high =>
    let mid := (low + high) / 2
    if knot < kv.getD mid 0 ∨ kv.getD (mid + 1) 0 ≤ knot then
      if knot < kv.getD mid 0 then findSpanLoop kv knot fuel low mid
      else findSpanLoop kv knot fuel mid high
    else some mid

/-- Embedding of `find_span` (lines 74-94, "Algorithm A2.1").
With `m = len(knotvector) - 1` and `n = m - degree - 1`: if
`knotvector[n+1] == knot` return `n` directly, else binary search with
`low = degree`, `high = n + 1`.  The fuel `kv.length` is an upper bound
on the iterations any terminating run can take (proved below). -/
def find_span (degree : ℕ) (kv : List ℚ) (knot : ℚ) : Option ℕ :=
  let m := kv.length - 1
  let n := m - degree - 1
  if kv.getD (n + 1) 0 = knot then some n
  else findSpanLoop kv knot kv.length degree (n + 1)

/-- Embedding of `right[i] = knotvector[span+i] - knot` as assigned on
line 108 (and line 133): the value stored in `right[i]` is independent
of the outer loop index, so the array cell is embedded as a function
of `i`. -/
def rightv (kv : List ℚ) (span : ℕ) (knot : ℚ) (i : ℕ) : ℚ :=
  kv.getD (span + i) 0 - knot

/-- Embedding of `left[i] = knot - knotvector[span+1-i]` as assigned on
line 107 (and line 132); independent of the outer loop index, like
`rightv`. -/
def leftv (kv : List ℚ) (span : ℕ) (knot : ℚ) (i : ℕ) : ℚ :=
  knot - kv.getD (span + 1 - i) 0

/-- The inner `while r < j` loop of `basis_functions` (lines 110-115),
processing the current values list from local index `r` upward with the
running `saved`; after the loop the final `saved` is appended
(line 116).  Each step computes
`temp = bfuncs_out[r] / (right[r+1] + left[j-r])`, replaces the entry by
`saved + right[r+1]*temp` and continues with `saved = left[j-r]*temp`. -/
def deBoorInner (knot : ℚ) (kv : List ℚ) (span j : ℕ) : ℕ → ℚ → List ℚ → List ℚ
  | _, saved, [] => [saved]
  | r, saved, v :: rest =>
    let temp := v / (rightv kv span knot (r + 1) + leftv kv span knot (j - r))
    (saved + rightv kv span knot (r + 1) * temp) ::
      deBoorInner knot kv span j (r + 1) (leftv kv span knot (j - r) * temp) rest

/-- The outer `while j <= degree` loop of `basis_functions`
(lines 105-117): state of `bfuncs_out` after processing local degrees
`1..j`, starting from `[1.0]` (line 103). -/
def basisUpTo (kv : List ℚ) (span : ℕ) (knot : ℚ) : ℕ → List ℚ
  | 0 => [1]
  | j + 1 => deBoorInner knot kv span (j + 1) 0 0 (basisUpTo kv span knot j)

/-- Embedding of `basis_functions` (lines 98-119, "Algorithm A2.2"). -/
def basis_functions (degree : ℕ) (kv : List ℚ) (span : ℕ) (knot : ℚ) : List ℚ :=
  basisUpTo kv span knot degree

/-- Pointwise update of a two-index table, used to embed the Python
assignments `ndu[i][j] = x` and `a[i][j] = x`: both tables are
preallocated with `degree+1` columns and (for `ndu`) `degree+1` rows, so
those writes are always in range and a total functional update is a
faithful model; only reads at assigned cells occur on the executed
paths. -/
def upd2 (f : ℕ → ℕ → ℚ) (i j : ℕ) (x : ℚ) : ℕ → ℕ → ℚ :=
  fun a b => if a = i ∧ b = j then x else f a b

/-- One iteration of the inner `for r in range(r, j)` loop of
`basis_functions_ders` stage 1 (lines 136-142), acting on the pair
(`ndu` table, `saved`): set the lower-triangle denominator
`ndu[j][r] = right[r+1] + left[j-r]`, compute
`temp = ndu[r][j-1] / ndu[j][r]`, set the upper-triangle value
`ndu[r][j] = saved + right[r+1]*temp` and continue with
`saved = left[j-r]*temp`. -/
def nduRowStep (kv : List ℚ) (span : ℕ) (knot : ℚ) (j : ℕ)
    (st : (ℕ → ℕ → ℚ) × ℚ) (r : ℕ) : (ℕ → ℕ → ℚ) × ℚ :=
  let ndu1 := upd2 st.1 j r (rightv kv span knot (r + 1) + leftv kv span knot (j - r))
  let temp := ndu1 r (j - 1) / ndu1 j r
  (upd2 ndu1 r j (st.2 + rightv kv span knot (r + 1) * temp),
   leftv kv span knot (j - r) * temp)

/-- One iteration of the outer `for j in range(1, degree+1)` loop of
stage 1 (lines 131-143): run the inner loop over `r in range(0, j)`
starting from `saved = 0.0` and finish with `ndu[j][j] = saved`. -/
def nduRow (kv : List ℚ) (span : ℕ) (knot : ℚ) (j : ℕ) (nd : ℕ → ℕ → ℚ) :
    ℕ → ℕ → ℚ :=
  let st := (List.range j).foldl (nduRowStep kv span knot j) (nd, 0)
  upd2 st.1 j j st.2

/-- The `ndu` table of `basis_functions_ders` after the first `J` outer
iterations of stage 1, starting from the all-`None` table (embedded with
default `0`, never read before assignment on the executed paths) with
`ndu[0][0] = 1.0` (line 129). -/
def nduTable (kv : List ℚ) (span : ℕ) (knot : ℚ) : ℕ → (ℕ → ℕ → ℚ)
  | 0 => upd2 (fun _ _ => 0) 0 0 1
  | j + 1 => nduRow kv span knot (j + 1) (nduTable kv span knot j)

/-- Read of a two-index table at possibly negative (ℤ-valued) Python
indices such as `ndu[pk+1][rk]`.  On every path executed by the
algorithm the guarding conditions (`r >= k`, the `j1`/`j2` bounds,
`r <= pk`) keep these indices nonnegative, so the negative branch is
never exercised. -/
def zndu (f : ℕ → ℕ → ℚ) (i j : ℤ) : ℚ :=
  if 0 ≤ i ∧ 0 ≤ j then f i.toNat j.toNat else 0

/-- Python `range(a, b+1)` over ℤ, i.e. the list `a, a+1, ..., b`
(empty when `b < a`); used for the `for j in range(j1, j2+1)` loop. -/
def zrange (a b : ℤ) : List ℤ :=
  (List.range (b + 1 - a).toNat).map (fun i => a + i)

/-- Python assignment `t[i][j] = x` on a list-of-lists: `none` models the
`IndexError` raised when `i` is not a valid row index (or `j` not a
valid column index).  This is the write `ders[k][r] = d` of line 180,
whose row index `k` can run past the end of the `ders` table. -/
def dersSet (t : List (List ℚ)) (i j : ℕ) (x : ℚ) : Option (List (List ℚ)) :=
  if i < t.length ∧ j < (t.getD i []).length then
    some (t.set i ((t.getD i []).set j x))
  else none

/-- State of the `for k in range(1, order+1)` loop of stage 2
(lines 159-185): the coefficient table `a`, the alternating row indices
`s1`, `s2`, and the `ders` output table. -/
structure DersKState where
  a : ℕ → ℕ → ℚ
  s1 : ℕ
  s2 : ℕ
  ders : List (List ℚ)

/-- State carried across iterations of the `for r in range(0, degree+1)`
loop of stage 2 (lines 153-185): the (persistent) table `a` and the
`ders` output; `s1` and `s2` are reinitialised for each `r`. -/
structure DersRState where
  a : ℕ → ℕ → ℚ
  ders : List (List ℚ)

/-- One iteration (derivative order `k`) of the stage-2 inner loop of
`basis_functions_ders` (lines 160-185): compute `d` through the three
guarded blocks, then perform the fallible write `ders[k][r] = d` and
swap `s1` with `s2`. -/
def dersKStep (degree : ℕ) (ndu : ℕ → ℕ → ℚ) (r : ℕ) (st : DersKState) (k : ℕ) :
    Option DersKState :=
  let rk : ℤ := (r : ℤ) - (k : ℤ)
  let pk : ℤ := (degree : ℤ) - (k : ℤ)
  let step1 : ((ℕ → ℕ → ℚ) × ℚ) :=
    if k ≤ r then
      let a1 := upd2 st.a st.s2 0 (st.a st.s1 0 / zndu ndu (pk + 1) rk)
      (a1, a1 st.s2 0 * zndu ndu rk pk)
    else (st.a, 0)
  let j1 : ℤ := if -1 ≤ rk then 1 else -rk
  let j2 : ℤ := if (r : ℤ) - 1 ≤ pk then (k : ℤ) - 1 else (degree : ℤ) - (r : ℤ)
  let step2 := (zrange j1 j2).foldl (fun (p : (ℕ → ℕ → ℚ) × ℚ) jz =>
      let v := (p.1 st.s1 jz.toNat - p.1 st.s1 (jz - 1).toNat) /
        zndu ndu (pk + 1) (rk + jz)
      (upd2 p.1 st.s2 jz.toNat v, p.2 + v * zndu ndu (rk + jz) pk)) step1
  let step3 : ((ℕ → ℕ → ℚ) × ℚ) :=
    if (r : ℤ) ≤ pk then
      let v := -(step2.1 st.s1 (k - 1)) / zndu ndu (pk + 1) (r : ℤ)
      (upd2 step2.1 st.s2 k v, step2.2 + v * zndu ndu (r : ℤ) pk)
    else step2
  (dersSet st.ders k r step3.2).map (fun dnew => ⟨step3.1, st.s2, st.s1, dnew⟩)

/-- One iteration (basis index `r`) of the stage-2 outer loop
(lines 153-185): reset `s1 = 0`, `s2 = 1`, set `a[0][0] = 1.0` and run
the `k` loop over `range(1, order+1)`. -/
def dersRStep (degree : ℕ) (ndu : ℕ → ℕ → ℚ) (order : ℕ) (st : DersRState)
    (r : ℕ) : Option DersRState :=
  ((List.range' 1 order).foldlM (dersKStep degree ndu r)
      ⟨upd2 st.a 0 0 1, 0, 1, st.ders⟩).map (fun s => ⟨s.a, s.ders⟩)

/-- Stage 3 of `basis_functions_ders` (lines 188-192): multiply row `k`
of `ders` by the running factor `r` (initially `degree`, multiplied by
`degree - k` after each row).  Row `k` has exactly `degree+1` entries,
so the per-entry loop `for j in range(0, degree+1)` is the row map. -/
def dersScale (degree order : ℕ) (ders : List (List ℚ)) :
    Option (List (List ℚ)) :=
  ((List.range' 1 order).foldlM (fun (p : List (List ℚ) × ℚ) k =>
      if k < p.1.length then
        some (p.1.set k ((p.1.getD k []).map (fun x => x * p.2)),
          p.2 * ((degree : ℚ) - (k : ℚ)))
      else none) (ders, (degree : ℚ))).map Prod.fst

/-- Embedding of `basis_functions_ders` (lines 122-195,
"Algorithm A2.3").  Stage 1 builds the `ndu` triangle; the `ders` table
is allocated with `min(degree, order) + 1` rows of `degree+1` entries
(line 146) and row 0 is loaded from `ndu[j][degree]` for
`j in range(0, degree+1)` (lines 147-148), which covers the whole row;
stage 2 computes the derivative rows and stage 3 rescales them.
`none` models a raised `IndexError`. -/
def basis_functions_ders (degree : ℕ) (kv : List ℚ) (span : ℕ) (knot : ℚ)
    (order : ℕ) : Option (List (List ℚ)) :=
  let ndu := nduTable kv span knot degree
  let row0 := (List.range (degree + 1)).map (fun j => ndu j degree)
  let ders0 := (List.replicate (min degree order + 1)
    (List.replicate (degree + 1) (0 : ℚ))).set 0 row0
  ((List.range (degree + 1)).foldlM (dersRStep degree ndu order)
      ⟨fun _ _ => 0, ders0⟩).bind
    (fun st => dersScale degree order st.ders)

/-- Embedding of `check_uv` (lines 198-209); `none` models the raised
`ValueError`. -/
def check_uv (u v : ℚ) (tn : Bool) (delta : ℚ) : Option Unit :=
  if u < 0 ∨ 1 < u then none
  else if v < 0 ∨ 1 < v then none
  else if tn then
    if 1 < u + delta ∨ u + delta < 0 ∨ 1 < v + delta ∨ v + delta < 0 then none
    else some ()
  else some ()

/-- A clamped knot vector for `degree`: the first `degree+1` entries all
equal the first knot and the last `degree+1` entries all equal the last
knot (spec section 3). -/
def IsClamped (degree : ℕ) (kv : List ℚ) : Prop :=
  (∀ i, i ≤ degree → kv.getD i 0 = kv.getD 0 0) ∧
  (∀ i, i < kv.length → kv.length - 1 - degree ≤ i →
    kv.getD i 0 = kv.getD (kv.length - 1) 0)

instance (degree : ℕ) (kv : List ℚ) : Decidable (IsClamped degree kv) := by
  unfold IsClamped
  infer_instance

/-! ### Helper lemmas -/

lemma getD_map_lt (f : ℚ → ℚ) (l : List ℚ) (i : ℕ) (h : i < l.length) :
    (l.map f).getD i 0 = f (l.getD i 0) := by
  rw [List.getD_eq_getElem l 0 h,
    List.getD_eq_getElem (l.map f) 0 (by simpa using h), List.getElem_map]

lemma normalize_knotvector_eq (kv : List ℚ) (h0 : kv.length ≠ 0)
    (hd : kv.getD (kv.length - 1) 0 - kv.getD 0 0 ≠ 0) :
    normalize_knotvector kv =
      some (kv.map fun k =>
        (k - kv.getD 0 0) / (kv.getD (kv.length - 1) 0 - kv.getD 0 0)) := by
  unfold normalize_knotvector
  rw [if_neg h0, if_neg hd]

lemma midKnots_eq_map (s : ℚ) : ∀ (c : ℕ) (m0 : ℚ),
    midKnots s m0 c = (List.range c).map (fun i : ℕ => m0 + (i : ℚ) * s)
  | 0, _ => by simp [midKnots]
  | c + 1, m0 => by
    rw [midKnots, midKnots_eq_map s c (m0 + s), List.range_succ_eq_map,
      List.map_cons, List.map_map]
    refine congrArg₂ _ (by push_cast; ring) (List.map_congr_left ?_)
    intro i _
    simp only [Function.comp_apply]
    push_cast
    ring

lemma chain'_getD_mono (kv : List ℚ) (h : List.Chain' (· ≤ ·) kv) :
    ∀ i j : ℕ, i ≤ j → j < kv.length → kv.getD i 0 ≤ kv.getD j 0 := by
  intro i j hij hj
  have hi : i < kv.length := by omega
  rw [List.getD_eq_getElem kv 0 hi, List.getD_eq_getElem kv 0 hj]
  rcases eq_or_lt_of_le hij with h1 | h1
  · subst h1
    exact le_refl _
  · have hp := List.chain'_iff_pairwise.mp h
    have := List.pairwise_iff_get.mp hp ⟨i, hi⟩ ⟨j, hj⟩ h1
    simpa using this

lemma findSpanLoop_spec (kv : List ℚ) (knot : ℚ) :
    ∀ (fuel low high : ℕ), low < high → kv.getD low 0 ≤ knot →
      knot < kv.getD high 0 → high - low ≤ fuel →
      ∃ i, findSpanLoop kv knot fuel low high = some i ∧ low ≤ i ∧ i < high ∧
        kv.getD i 0 ≤ knot ∧ knot < kv.getD (i + 1) 0 := by
  intro fuel
  induction fuel with
  | zero =>
    intro low high h1 _ _ h4
    omega
  | succ fuel ih =>
    intro low high hlh hlow hhigh hf
    have hmidlo : low ≤ (low + high) / 2 := by omega
    have hmidhi : (low + high) / 2 < high := by omega
    by_cases hc : knot < kv.getD ((low + high) / 2) 0 ∨
        kv.getD ((low + high) / 2 + 1) 0 ≤ knot
    · by_cases hc1 : knot < kv.getD ((low + high) / 2) 0
      · have hmlow : low < (low + high) / 2 := by
          rcases Nat.lt_or_ge low ((low + high) / 2) with h | h
          · exact h
          · exfalso
            have hm : (low + high) / 2 = low := by omega
            rw [hm] at hc1
            exact absurd hlow (not_le.mpr hc1)
        obtain ⟨i, hi, hb1, hb2, hb3, hb4⟩ :=
          ih low ((low + high) / 2) hmlow hlow hc1 (by omega)
        refine ⟨i, ?_, hb1, by omega, hb3, hb4⟩
        simp only [findSpanLoop]
        rw [if_pos hc, if_pos hc1]
        exact hi
      · have hge : kv.getD ((low + high) / 2) 0 ≤ knot := not_lt.mp hc1
        have hc2 : kv.getD ((low + high) / 2 + 1) 0 ≤ knot := hc.resolve_left hc1
        have hmlow : low < (low + high) / 2 := by
          rcases Nat.lt_or_ge low ((low + high) / 2) with h | h
          · exact h
          · exfalso
            have hm : (low + high) / 2 + 1 = high := by omega
            rw [hm] at hc2
            exact absurd hhigh (not_lt.mpr hc2)
        obtain ⟨i, hi, hb1, hb2, hb3, hb4⟩ :=
          ih ((low + high) / 2) high hmidhi hge hhigh (by omega)
        refine ⟨i, ?_, by omega, hb2, hb3, hb4⟩
        simp only [findSpanLoop]
        rw [if_pos hc, if_neg hc1]
        exact hi
    · push_neg at hc
      refine ⟨(low + high) / 2, ?_, hmidlo, hmidhi, hc.1, hc.2⟩
      simp only [findSpanLoop]
      rw [if_neg]
      push_neg
      exact hc

/-! ### Claim C7: find_span terminates and returns the containing span -/

/-- C7: for every `degree ≥ 1`, non-decreasing clamped knot vector with
`knotvector[degree] < knotvector[n+1]` (where `n = m - degree - 1`,
`m = len - 1`), and knot in `[knotvector[degree], knotvector[n+1]]`, the
binary-search loop of `find_span` terminates (within `kv.length`
iterations, hence the fuel) and the returned index `i` satisfies
`knotvector[i] <= knot < knotvector[i+1]`, or `i = n` in the
upper-boundary special case `knot = knotvector[n+1]`. -/
theorem find_span_terminates_correct (degree : ℕ) (kv : List ℚ) (knot : ℚ)
    (hdeg : 1 ≤ degree) (hmono : List.Chain' (· ≤ ·) kv)
    (hclamp : IsClamped degree kv) (hlen : 2 * degree + 2 ≤ kv.length)
    (hne : kv.getD degree 0 < kv.getD (kv.length - degree - 1) 0)
    (h1 : kv.getD degree 0 ≤ knot)
    (h2 : knot ≤ kv.getD (kv.length - degree - 1) 0) :
    ∃ i, find_span degree kv knot = some i ∧
      ((kv.getD i 0 ≤ knot ∧ knot < kv.getD (i + 1) 0) ∨
        (knot = kv.getD (kv.length - degree - 1) 0 ∧
          i = kv.length - degree - 2)) := by
  have hn2 : kv.length - 1 - degree - 1 = kv.length - degree - 2 := by omega
  have hn1 : kv.length - degree - 2 + 1 = kv.length - degree - 1 := by omega
  unfold find_span
  simp only [hn2, hn1]
  by_cases hend : kv.getD (kv.length - degree - 1) 0 = knot
  · exact ⟨_, by rw [if_pos hend], Or.inr ⟨hend.symm, rfl⟩⟩
  · have hlt : knot < kv.getD (kv.length - degree - 1) 0 :=
      lt_of_le_of_ne h2 (fun h => hend h.symm)
    obtain ⟨i, hi, hb1, hb2, hb3, hb4⟩ := findSpanLoop_spec kv knot kv.length
      degree (kv.length - degree - 1) (by omega) h1 hlt (by omega)
    exact ⟨i, by rw [if_neg hend]; exact hi, Or.inl ⟨hb3, hb4⟩⟩

/-- Witness for C7 at `degree = 2`, `kv = [0,0,0,1,2,2,2]`, `knot = 1`. -/
theorem find_span_terminates_correct_witness :
    ∃ i, find_span 2 [(0 : ℚ), 0, 0, 1, 2, 2, 2] 1 = some i ∧
      ((([(0 : ℚ), 0, 0, 1, 2, 2, 2]).getD i 0 ≤ 1 ∧
          (1 : ℚ) < ([(0 : ℚ), 0, 0, 1, 2, 2, 2]).getD (i + 1) 0) ∨
        ((1 : ℚ) = ([(0 : ℚ), 0, 0, 1, 2, 2, 2]).getD
            (([(0 : ℚ), 0, 0, 1, 2, 2, 2]).length - 2 - 1) 0 ∧
          i = ([(0 : ℚ), 0, 0, 1, 2, 2, 2]).length - 2 - 2)) :=
  find_span_terminates_correct 2 [0, 0, 0, 1, 2, 2, 2] 1 (by decide)
    (by simp [List.chain'_cons]) (by decide) (by decide) (by decide)
    (by decide) (by decide)

/-! ### Claim C6: find_span at the domain endpoints -/

/-- C6: for every `degree ≥ 1` and valid clamped non-decreasing knot
vector (first and last values each of multiplicity exactly `degree+1`,
so `knotvector[degree] < knotvector[degree+1]`, and a non-degenerate
domain `knotvector[degree] < knotvector[n+1]`), `find_span` returns
`n = len - degree - 2` when the knot equals the last distinct knot value
`knotvector[n+1]`, and returns `degree` when the knot equals the first
distinct knot value `knotvector[degree]`. -/
theorem find_span_endpoint_spans (degree : ℕ) (kv : List ℚ)
    (hdeg : 1 ≤ degree) (hmono : List.Chain' (· ≤ ·) kv)
    (hclamp : IsClamped degree kv) (hlen : 2 * degree + 2 ≤ kv.length)
    (hne : kv.getD degree 0 < kv.getD (kv.length - degree - 1) 0)
    (hstep : kv.getD degree 0 < kv.getD (degree + 1) 0) :
    find_span degree kv (kv.getD (kv.length - degree - 1) 0) =
      some (kv.length - degree - 2) ∧
    find_span degree kv (kv.getD degree 0) = some degree := by
  have hn2 : kv.length - 1 - degree - 1 = kv.length - degree - 2 := by omega
  have hn1 : kv.length - degree - 2 + 1 = kv.length - degree - 1 := by omega
  constructor
  · unfold find_span
    simp only [hn2, hn1]
    simp
  · unfold find_span
    simp only [hn2, hn1]
    rw [if_neg (by intro h; exact absurd h.symm (ne_of_lt hne))]
    obtain ⟨i, hi, hb1, hb2, hb3, hb4⟩ := findSpanLoop_spec kv
      (kv.getD degree 0) kv.length degree (kv.length - degree - 1)
      (by omega) (le_refl _) hne (by omega)
    have hieq : i = degree := by
      by_contra hne2
      have hgt : degree + 1 ≤ i := by omega
      have : kv.getD (degree + 1) 0 ≤ kv.getD i 0 :=
        chain'_getD_mono kv hmono (degree + 1) i hgt (by omega)
      exact absurd (le_trans this hb3) (not_le.mpr hstep)
    rw [hieq] at hi
    exact hi

/-- Witness for C6 at `degree = 2`, `kv = [0,0,0,1,2,2,2]`. -/
theorem find_span_endpoint_spans_witness :
    find_span 2 [(0 : ℚ), 0, 0, 1, 2, 2, 2]
        (([(0 : ℚ), 0, 0, 1, 2, 2, 2]).getD
          (([(0 : ℚ), 0, 0, 1, 2, 2, 2]).length - 2 - 1) 0) =
      some (([(0 : ℚ), 0, 0, 1, 2, 2, 2]).length - 2 - 2) ∧
    find_span 2 [(0 : ℚ), 0, 0, 1, 2, 2, 2]
        (([(0 : ℚ), 0, 0, 1, 2, 2, 2]).getD 2 0) = some 2 :=
  find_span_endpoint_spans 2 [0, 0, 0, 1, 2, 2, 2] (by decide)
    (by simp [List.chain'_cons]) (by decide) (by decide) (by decide)
    (by decide)

lemma deBoorInner_length (knot : ℚ) (kv : List ℚ) (span j : ℕ) :
    ∀ (vals : List ℚ) (r : ℕ) (saved : ℚ),
      (deBoorInner knot kv span j r saved vals).length = vals.length + 1
  | [], _, _ => rfl
  | _ :: rest, r, saved => by
    simp [deBoorInner, deBoorInner_length knot kv span j rest (r + 1)]

lemma basisUpTo_length (kv : List ℚ) (span : ℕ) (knot : ℚ) :
    ∀ j : ℕ, (basisUpTo kv span knot j).length = j + 1
  | 0 => rfl
  | j + 1 => by
    simp [basisUpTo, deBoorInner_length, basisUpTo_length kv span knot j]

lemma deBoorInner_spec (kv : List ℚ) (span : ℕ) (knot : ℚ) (j : ℕ)
    (hR : ∀ i, 1 ≤ i → i ≤ j → 0 < rightv kv span knot i)
    (hL : ∀ i, 1 ≤ i → i ≤ j → 0 ≤ leftv kv span knot i) :
    ∀ (vals : List ℚ) (r : ℕ) (saved : ℚ), r + vals.length = j →
      0 ≤ saved → (∀ x ∈ vals, 0 ≤ x) →
      (∀ x ∈ deBoorInner knot kv span j r saved vals, 0 ≤ x) ∧
      (deBoorInner knot kv span j r saved vals).sum = saved + vals.sum := by
  intro vals
  induction vals with
  | nil =>
    intro r saved _ hsv _
    refine ⟨?_, by simp [deBoorInner]⟩
    intro x hx
    simp only [deBoorInner, List.mem_singleton] at hx
    exact hx ▸ hsv
  | cons v rest ih =>
    intro r saved hrlen hsv hvals
    have hr1 : 1 ≤ r + 1 := by omega
    have hr2 : r + 1 ≤ j := by simp at hrlen; omega
    have hl1 : 1 ≤ j - r := by simp at hrlen; omega
    have hl2 : j - r ≤ j := by omega
    have hRpos := hR (r + 1) hr1 hr2
    have hLpos := hL (j - r) hl1 hl2
    have hden : 0 < rightv kv span knot (r + 1) + leftv kv span knot (j - r) :=
      by linarith
    have hv : 0 ≤ v := hvals v (List.mem_cons_self v rest)
    have htemp : 0 ≤ v / (rightv kv span knot (r + 1) +
        leftv kv span knot (j - r)) := div_nonneg hv (le_of_lt hden)
    have hhead : 0 ≤ saved + rightv kv span knot (r + 1) *
        (v / (rightv kv span knot (r + 1) + leftv kv span knot (j - r))) := by
      have := mul_nonneg (le_of_lt hRpos) htemp
      linarith
    have hsaved : 0 ≤ leftv kv span knot (j - r) *
        (v / (rightv kv span knot (r + 1) + leftv kv span knot (j - r))) :=
      mul_nonneg hLpos htemp
    obtain ⟨ihn, ihs⟩ := ih (r + 1) _ (by simp at hrlen ⊢; omega) hsaved
      (fun x hx => hvals x (List.mem_cons_of_mem v hx))
    constructor
    · intro x hx
      simp only [deBoorInner, List.mem_cons] at hx
      rcases hx with h | h
      · exact h ▸ hhead
      · exact ihn x h
    · simp only [deBoorInner, List.sum_cons, ihs]
      have hsplit : rightv kv span knot (r + 1) *
            (v / (rightv kv span knot (r + 1) + leftv kv span knot (j - r))) +
          leftv kv span knot (j - r) *
            (v / (rightv kv span knot (r + 1) + leftv kv span knot (j - r))) =
          v := by
        rw [← add_mul, mul_div_cancel₀]
        exact ne_of_gt hden
      linarith

/-! ### Claim C1: basis_functions is a nonnegative partition of unity -/

/-- C1: for every `degree ≥ 1`, non-decreasing clamped knot vector,
valid span (`degree ≤ span ≤ n`, i.e. `span + degree + 2 ≤ len`), and
in-domain knot with `knotvector[span] ≤ knot < knotvector[span+1]`,
`basis_functions` returns exactly `degree+1` values, each value is
`≥ 0`, and the values sum exactly to 1 (partition of unity; exact in
rational arithmetic, up to floating tolerance in the Python floats). -/
theorem basis_functions_partition_of_unity (degree : ℕ) (kv : List ℚ)
    (span : ℕ) (knot : ℚ) (hdeg : 1 ≤ degree)
    (hmono : List.Chain' (· ≤ ·) kv) (hclamp : IsClamped degree kv)
    (hspanlo : degree ≤ span) (hspanhi : span + degree + 2 ≤ kv.length)
    (hlo : kv.getD span 0 ≤ knot) (hhi : knot < kv.getD (span + 1) 0) :
    (basis_functions degree kv span knot).length = degree + 1 ∧
    (∀ x ∈ basis_functions degree kv span knot, 0 ≤ x) ∧
    (basis_functions degree kv span knot).sum = 1 := by
  have hR : ∀ i, 1 ≤ i → i ≤ degree → 0 < rightv kv span knot i := by
    intro i h1 h2
    have hmle : kv.getD (span + 1) 0 ≤ kv.getD (span + i) 0 :=
      chain'_getD_mono kv hmono (span + 1) (span + i) (by omega) (by omega)
    unfold rightv
    linarith
  have hL : ∀ i, 1 ≤ i → i ≤ degree → 0 ≤ leftv kv span knot i := by
    intro i h1 h2
    have hmle : kv.getD (span + 1 - i) 0 ≤ kv.getD span 0 :=
      chain'_getD_mono kv hmono (span + 1 - i) span (by omega) (by omega)
    unfold leftv
    linarith
  have main : ∀ j, j ≤ degree →
      (∀ x ∈ basisUpTo kv span knot j, 0 ≤ x) ∧
      (basisUpTo kv span knot j).sum = 1 := by
    intro j
    induction j with
    | zero =>
      intro _
      exact ⟨by intro x hx; simp [basisUpTo] at hx; simp [hx], by
        simp [basisUpTo]⟩
    | succ j ihj =>
      intro hj
      obtain ⟨ihn, ihs⟩ := ihj (by omega)
      have hR' : ∀ i, 1 ≤ i → i ≤ j + 1 → 0 < rightv kv span knot i :=
        fun i h1 h2 => hR i h1 (by omega)
      have hL' : ∀ i, 1 ≤ i → i ≤ j + 1 → 0 ≤ leftv kv span knot i :=
        fun i h1 h2 => hL i h1 (by omega)
      obtain ⟨hn, hs⟩ := deBoorInner_spec kv span knot (j + 1) hR' hL'
        (basisUpTo kv span knot j) 0 0
        (by simp [basisUpTo_length]) (le_refl 0) ihn
      exact ⟨hn, by simp only [basisUpTo, hs, ihs, zero_add]⟩
  obtain ⟨hn, hs⟩ := main degree (le_refl degree)
  exact ⟨basisUpTo_length kv span knot degree, hn, hs⟩

/-- Witness for C1 at `degree = 2`, `kv = [0,0,0,2,2,2]`, `span = 2`,
`knot = 1`. -/
theorem basis_functions_partition_of_unity_witness :
    (basis_functions 2 [(0 : ℚ), 0, 0, 2, 2, 2] 2 1).length = 2 + 1 ∧
    (∀ x ∈ basis_functions 2 [(0 : ℚ), 0, 0, 2, 2, 2] 2 1, 0 ≤ x) ∧
    (basis_functions 2 [(0 : ℚ), 0, 0, 2, 2, 2] 2 1).sum = 1 :=
  basis_functions_partition_of_unity 2 [0, 0, 0, 2, 2, 2] 2 1 (by decide)
    (by simp [List.chain'_cons]) (by decide) (by decide) (by decide)
    (by decide) (by decide)

lemma map_getD_range (l : List ℚ) :
    (List.range l.length).map (fun i => l.getD i 0) = l := by
  apply List.ext_getElem
  · simp
  · intro i h1 h2
    simp [List.getD_eq_getElem l 0 h2, List.getElem?_eq_getElem h2]

lemma getD_append_length (l : List ℚ) (x : ℚ) :
    (l ++ [x]).getD l.length 0 = x := by
  induction l with
  | nil => rfl
  | cons a l ih => simpa using ih

lemma getD_map_range' (f : ℕ → ℚ) (s n i : ℕ) (h : i < n) :
    ((List.range' s n).map f).getD i 0 = f (s + i) := by
  rw [List.getD_eq_getElem _ 0 (by simp [h])]
  simp

lemma upd2_ne (f : ℕ → ℕ → ℚ) (i j : ℕ) (x : ℚ) (a b : ℕ)
    (h : ¬(a = i ∧ b = j)) : upd2 f i j x a b = f a b := if_neg h

lemma upd2_same (f : ℕ → ℕ → ℚ) (i j : ℕ) (x : ℚ) : upd2 f i j x i j = x :=
  if_pos ⟨rfl, rfl⟩

lemma nduRow_fold_spec (kv : List ℚ) (span : ℕ) (knot : ℚ) (j : ℕ)
    (hj : 1 ≤ j) :
    ∀ (len r0 : ℕ) (nd : ℕ → ℕ → ℚ) (sv : ℚ), r0 + len = j →
      (∀ a b, a ≠ j → b ≠ j →
        ((List.range' r0 len).foldl (nduRowStep kv span knot j) (nd, sv)).1 a b
          = nd a b) ∧
      (∀ a, a < r0 →
        ((List.range' r0 len).foldl (nduRowStep kv span knot j) (nd, sv)).1 a j
          = nd a j) ∧
      (List.range' r0 len).map
          (fun a => ((List.range' r0 len).foldl (nduRowStep kv span knot j)
            (nd, sv)).1 a j) ++
        [((List.range' r0 len).foldl (nduRowStep kv span knot j) (nd, sv)).2]
        = deBoorInner knot kv span j r0 sv
            ((List.range' r0 len).map (fun a => nd a (j - 1))) := by
  intro len
  induction len with
  | zero =>
    intro r0 nd sv _
    refine ⟨fun a b _ _ => rfl, fun a _ => rfl, ?_⟩
    simp [deBoorInner]
  | succ len ih =>
    intro r0 nd sv hr
    have hr0j : r0 < j := by omega
    have hstep : nduRowStep kv span knot j (nd, sv) r0 =
        (upd2 (upd2 nd j r0
            (rightv kv span knot (r0 + 1) + leftv kv span knot (j - r0))) r0 j
            (sv + rightv kv span knot (r0 + 1) * (nd r0 (j - 1) /
              (rightv kv span knot (r0 + 1) + leftv kv span knot (j - r0)))),
         leftv kv span knot (j - r0) * (nd r0 (j - 1) /
            (rightv kv span knot (r0 + 1) + leftv kv span knot (j - r0)))) := by
      simp only [nduRowStep]
      rw [show (upd2 nd j r0
            (rightv kv span knot (r0 + 1) + leftv kv span knot (j - r0)))
              r0 (j - 1) = nd r0 (j - 1) from by
          simp only [upd2]
          rw [if_neg (by omega)],
        show (upd2 nd j r0
            (rightv kv span knot (r0 + 1) + leftv kv span knot (j - r0)))
              j r0 =
            rightv kv span knot (r0 + 1) + leftv kv span knot (j - r0) from by
          simp [upd2]]
    rw [List.range'_succ, List.foldl_cons, List.map_cons, List.map_cons, hstep]
    obtain ⟨p1, p2, p3⟩ := ih (r0 + 1)
      (upd2 (upd2 nd j r0
        (rightv kv span knot (r0 + 1) + leftv kv span knot (j - r0))) r0 j
        (sv + rightv kv span knot (r0 + 1) * (nd r0 (j - 1) /
          (rightv kv span knot (r0 + 1) + leftv kv span knot (j - r0)))))
      (leftv kv span knot (j - r0) * (nd r0 (j - 1) /
        (rightv kv span knot (r0 + 1) + leftv kv span knot (j - r0))))
      (by omega)
    refine ⟨?_, ?_, ?_⟩
    · intro a b ha hb
      rw [p1 a b ha hb]
      simp only [upd2]
      rw [if_neg (by omega), if_neg (by omega)]
    · intro a ha
      rw [p2 a (by omega)]
      simp only [upd2]
      rw [if_neg (by omega), if_neg (by omega)]
    · have hhead : ((List.range' (r0 + 1) len).foldl
          (nduRowStep kv span knot j)
          (upd2 (upd2 nd j r0
            (rightv kv span knot (r0 + 1) + leftv kv span knot (j - r0))) r0 j
            (sv + rightv kv span knot (r0 + 1) * (nd r0 (j - 1) /
              (rightv kv span knot (r0 + 1) + leftv kv span knot (j - r0)))),
           leftv kv span knot (j - r0) * (nd r0 (j - 1) /
            (rightv kv span knot (r0 + 1) +
              leftv kv span knot (j - r0))))).1 r0 j =
          sv + rightv kv span knot (r0 + 1) * (nd r0 (j - 1) /
            (rightv kv span knot (r0 + 1) + leftv kv span knot (j - r0))) := by
        rw [p2 r0 (by omega)]
        simp [upd2]
      have htail : (List.range' (r0 + 1) len).map
          (fun a => (upd2 (upd2 nd j r0
            (rightv kv span knot (r0 + 1) + leftv kv span knot (j - r0))) r0 j
            (sv + rightv kv span knot (r0 + 1) * (nd r0 (j - 1) /
              (rightv kv span knot (r0 + 1) + leftv kv span knot (j - r0)))))
            a (j - 1)) =
          (List.range' (r0 + 1) len).map (fun a => nd a (j - 1)) := by
        apply List.map_congr_left
        intro a ha
        rw [List.mem_range'_1] at ha
        simp only [upd2]
        rw [if_neg (by omega), if_neg (by omega)]
      simp only [deBoorInner, List.cons_append, hhead]
      rw [p3, htail]


lemma nduTable_upper_col (kv : List ℚ) (span : ℕ) (knot : ℚ) :
    ∀ J r, r ≤ J →
      nduTable kv span knot J r J = (basisUpTo kv span knot J).getD r 0 := by
  intro J
  induction J with
  | zero =>
    intro r hr
    interval_cases r
    simp [nduTable, upd2, basisUpTo]
  | succ J ihJ =>
    intro r hr
    have hin : (List.range' 0 (J + 1)).map
        (fun a => nduTable kv span knot J a (J + 1 - 1)) =
        basisUpTo kv span knot J := by
      rw [show J + 1 - 1 = J from rfl, ← List.range_eq_range']
      calc (List.range (J + 1)).map (fun a => nduTable kv span knot J a J)
          = (List.range (J + 1)).map
            (fun a => (basisUpTo kv span knot J).getD a 0) :=
            List.map_congr_left (fun a ha => ihJ a (by
              rw [List.mem_range] at ha; omega))
        _ = basisUpTo kv span knot J := by
            rw [show J + 1 = (basisUpTo kv span knot J).length from
              (basisUpTo_length kv span knot J).symm]
            exact map_getD_range _
    obtain ⟨p1, p2, p3⟩ := nduRow_fold_spec kv span knot (J + 1) (by omega)
      (J + 1) 0 (nduTable kv span knot J) 0 (by omega)
    rw [hin] at p3
    have hbasis : (List.range' 0 (J + 1)).map
          (fun a => ((List.range' 0 (J + 1)).foldl
            (nduRowStep kv span knot (J + 1))
            (nduTable kv span knot J, 0)).1 a (J + 1)) ++
        [((List.range' 0 (J + 1)).foldl (nduRowStep kv span knot (J + 1))
          (nduTable kv span knot J, 0)).2] =
        basisUpTo kv span knot (J + 1) := by
      rw [p3]
      rfl
    show nduRow kv span knot (J + 1) (nduTable kv span knot J) r (J + 1) = _
    unfold nduRow
    rw [List.range_eq_range']
    rcases Nat.lt_or_ge r (J + 1) with hrJ | hrJ
    · -- r ≤ J: off-diagonal entry, read from the fold state
      rw [upd2_ne _ _ _ _ _ _ (by omega)]
      have hlist := congrArg (fun l => l.getD r 0) hbasis
      simp only at hlist
      rw [List.getD_append _ _ _ _ (by simp [hrJ]),
        getD_map_range' _ 0 (J + 1) r hrJ] at hlist
      simpa using hlist
    · -- r = J + 1: the diagonal entry ndu[j][j] = saved
      have hreq : r = J + 1 := by omega
      subst hreq
      rw [upd2_same]
      have hlist := congrArg (fun l => l.getD (J + 1) 0) hbasis
      simp only at hlist
      have hgen : ∀ (l : List ℚ) (x : ℚ), l.length = J + 1 →
          (l ++ [x]).getD (J + 1) 0 = x := by
        intro l x hl
        rw [← hl, getD_append_length]
      rw [hgen _ _ (by simp)] at hlist
      exact hlist

lemma dersRStep_order0 (degree : ℕ) (ndu : ℕ → ℕ → ℚ) (st : DersRState)
    (r : ℕ) :
    dersRStep degree ndu 0 st r = some ⟨upd2 st.a 0 0 1, st.ders⟩ := rfl

lemma foldlM_dersRStep_order0 (degree : ℕ) (ndu : ℕ → ℕ → ℚ) :
    ∀ (l : List ℕ) (st : DersRState),
      ∃ a2, l.foldlM (dersRStep degree ndu 0) st = some ⟨a2, st.ders⟩ := by
  intro l
  induction l with
  | nil =>
    intro st
    exact ⟨st.a, by simp⟩
  | cons r l ih =>
    intro st
    obtain ⟨a2, h2⟩ := ih ⟨upd2 st.a 0 0 1, st.ders⟩
    refine ⟨a2, ?_⟩
    rw [List.foldlM_cons, dersRStep_order0]
    simpa using h2

/-! ### Claim C3: order-0 derivatives equal basis_functions -/

/-- C3: for every `degree ≥ 1`, valid clamped non-decreasing knot
vector, valid span, and in-domain knot, row 0 of
`basis_functions_ders` called with `order = 0` is exactly equal,
element by element, to `basis_functions` at the same arguments —
indeed the whole returned table is exactly the single row
`basis_functions degree kv span knot`. -/
theorem basis_functions_ders_order0_eq_basis_functions (degree : ℕ)
    (kv : List ℚ) (span : ℕ) (knot : ℚ) (hdeg : 1 ≤ degree)
    (hmono : List.Chain' (· ≤ ·) kv) (hclamp : IsClamped degree kv)
    (hspanlo : degree ≤ span) (hspanhi : span + degree + 2 ≤ kv.length)
    (hlo : kv.getD span 0 ≤ knot) (hhi : knot < kv.getD (span + 1) 0) :
    basis_functions_ders degree kv span knot 0 =
      some [basis_functions degree kv span knot] := by
  have hrow0 : (List.range (degree + 1)).map
      (fun j => nduTable kv span knot degree j degree) =
      basis_functions degree kv span knot := by
    have h1 : (List.range (degree + 1)).map
        (fun j => nduTable kv span knot degree j degree) =
        (List.range (degree + 1)).map
        (fun j => (basisUpTo kv span knot degree).getD j 0) :=
      List.map_congr_left (fun a ha => nduTable_upper_col kv span knot
        degree a (by rw [List.mem_range] at ha; omega))
    rw [h1, show degree + 1 = (basisUpTo kv span knot degree).length from
      (basisUpTo_length kv span knot degree).symm]
    exact map_getD_range _
  simp only [basis_functions_ders]
  rw [hrow0]
  have hders0 : (List.replicate (min degree 0 + 1)
      (List.replicate (degree + 1) (0 : ℚ))).set 0
      (basis_functions degree kv span knot) =
      [basis_functions degree kv span knot] := by
    simp
  rw [hders0]
  obtain ⟨a2, hfold⟩ := foldlM_dersRStep_order0 degree
    (nduTable kv span knot degree) (List.range (degree + 1))
    ⟨fun _ _ => 0, [basis_functions degree kv span knot]⟩
  rw [hfold]
  rfl

/-- Witness for C3 at `degree = 2`, `kv = [0,0,0,2,2,2]`, `span = 2`,
`knot = 1`. -/
theorem basis_functions_ders_order0_eq_basis_functions_witness :
    basis_functions_ders 2 [(0 : ℚ), 0, 0, 2, 2, 2] 2 1 0 =
      some [basis_functions 2 [(0 : ℚ), 0, 0, 2, 2, 2] 2 1] :=
  basis_functions_ders_order0_eq_basis_functions 2 [0, 0, 0, 2, 2, 2] 2 1
    (by decide) (by simp [List.chain'_cons]) (by decide) (by decide)
    (by decide) (by decide) (by decide)

/-! ### Claim C8: normalize_knotvector -/

/-- C8: `normalize_knotvector` returns the empty sequence unchanged (no
error) when given an empty sequence; for every non-empty knot vector
whose first and last values differ, it returns a sequence of the same
length whose first element is exactly 0, whose last element is exactly
1, and whose element `i` is `(kv[i] - first) / (last - first)`. -/
theorem normalize_knotvector_spec (kv : List ℚ) (hne : kv ≠ [])
    (hd : kv.getD 0 0 ≠ kv.getD (kv.length - 1) 0) :
    normalize_knotvector [] = some [] ∧
    ∃ out, normalize_knotvector kv = some out ∧
      out.length = kv.length ∧
      out.getD 0 0 = 0 ∧
      out.getD (out.length - 1) 0 = 1 ∧
      ∀ i, i < kv.length →
        out.getD i 0 =
          (kv.getD i 0 - kv.getD 0 0) /
            (kv.getD (kv.length - 1) 0 - kv.getD 0 0) := by
  have h0 : kv.length ≠ 0 := fun h => hne (List.length_eq_zero.mp h)
  have hpos : 0 < kv.length := Nat.pos_of_ne_zero h0
  have hden : kv.getD (kv.length - 1) 0 - kv.getD 0 0 ≠ 0 :=
    sub_ne_zero.mpr (Ne.symm hd)
  refine ⟨rfl, ?_⟩
  refine ⟨_, normalize_knotvector_eq kv h0 hden, by simp, ?_, ?_, ?_⟩
  · rw [getD_map_lt _ _ _ hpos, sub_self, zero_div]
  · rw [List.length_map, getD_map_lt _ _ _ (by omega), div_self hden]
  · intro i hi
    rw [getD_map_lt _ _ _ hi]

/-- Witness for C8 at the concrete knot vector `[1, 3]`. -/
theorem normalize_knotvector_spec_witness :
    normalize_knotvector [] = some [] ∧
    ∃ out, normalize_knotvector [(1 : ℚ), 3] = some out ∧
      out.length = ([(1 : ℚ), 3]).length ∧
      out.getD 0 0 = 0 ∧
      out.getD (out.length - 1) 0 = 1 ∧
      ∀ i, i < ([(1 : ℚ), 3]).length →
        out.getD i 0 =
          (([(1 : ℚ), 3]).getD i 0 - ([(1 : ℚ), 3]).getD 0 0) /
            (([(1 : ℚ), 3]).getD (([(1 : ℚ), 3]).length - 1) 0 -
              ([(1 : ℚ), 3]).getD 0 0) :=
  normalize_knotvector_spec [1, 3] (by decide) (by decide)

/-! ### Claim C10: normalize_knotvector is idempotent -/

/-- C10: `normalize_knotvector` is idempotent on non-degenerate inputs:
for a non-empty knot vector whose first and last values differ, applying
it to its own output returns that output unchanged. -/
theorem normalize_knotvector_idempotent (kv : List ℚ) (hne : kv ≠ [])
    (hd : kv.getD 0 0 ≠ kv.getD (kv.length - 1) 0) (out : List ℚ)
    (hout : normalize_knotvector kv = some out) :
    normalize_knotvector out = some out := by
  have h0 : kv.length ≠ 0 := fun h => hne (List.length_eq_zero.mp h)
  have hpos : 0 < kv.length := Nat.pos_of_ne_zero h0
  have hden : kv.getD (kv.length - 1) 0 - kv.getD 0 0 ≠ 0 :=
    sub_ne_zero.mpr (Ne.symm hd)
  rw [normalize_knotvector_eq kv h0 hden, Option.some.injEq] at hout
  have hlen : out.length = kv.length := by rw [← hout]; simp
  have hfirst : out.getD 0 0 = 0 := by
    rw [← hout, getD_map_lt _ _ _ hpos, sub_self, zero_div]
  have hlast : out.getD (out.length - 1) 0 = 1 := by
    rw [← hout]
    rw [← hout] at hlen
    rw [hlen, getD_map_lt _ _ _ (by omega), div_self hden]
  rw [normalize_knotvector_eq out (by omega) (by rw [hlast, hfirst]; norm_num),
    hlast, hfirst]
  simp

/-- Witness for C10 at the concrete knot vector `[1, 3]`. -/
theorem normalize_knotvector_idempotent_witness :
    normalize_knotvector [(0 : ℚ), 1] = some [(0 : ℚ), 1] :=
  normalize_knotvector_idempotent [1, 3] (by decide) (by decide) [0, 1]
    (by norm_num [normalize_knotvector])

/-! ### Claim C9: check_uv -/

/-- C9: `check_uv u v tn delta` raises an error if and only if `u` or
`v` lies outside `[0, 1]`, or `tn` is set and `u + delta` or `v + delta`
falls outside `[0, 1]`; in particular `check_uv 1.5 0.5` and
`check_uv 0.95 0.5 true 0.1` fail while `check_uv 0.5 0.5 true 0.1`
succeeds. -/
theorem check_uv_error_iff :
    (∀ (u v : ℚ) (tn : Bool) (d : ℚ),
      check_uv u v tn d = none ↔
        (u < 0 ∨ 1 < u ∨ v < 0 ∨ 1 < v ∨
          (tn = true ∧
            (u + d < 0 ∨ 1 < u + d ∨ v + d < 0 ∨ 1 < v + d)))) ∧
    check_uv (3/2) (1/2) false (1/10) = none ∧
    check_uv (19/20) (1/2) true (1/10) = none ∧
    check_uv (1/2) (1/2) true (1/10) = some () := by
  refine ⟨?_, by norm_num [check_uv], by norm_num [check_uv],
    by norm_num [check_uv]⟩
  intro u v tn d
  unfold check_uv
  split_ifs with h1 h2 h3 h4 <;> simp_all <;> tauto

/-! ### Claim C4: autogen_knotvector structure -/

/-- Counterexample to C4 as stated: at `degree = 2`, `num_ctrlpts = 4`
the result is `[0, 0, 0, 1/2, 1, 1, 1]`, which has one interior knot
(not `num_segments = 2`) and length `7 = degree + num_ctrlpts + 1`,
not `m + 1 = 8`. -/
theorem autogen_knotvector_length_counterexample :
    autogen_knotvector 2 4 = some [0, 0, 0, 1/2, 1, 1, 1] ∧
    (autogen_knotvector 2 4).map List.length ≠ some (2 + 4 + 1 + 1) := by
  norm_num [autogen_knotvector, midKnots, List.replicate_succ]

/-- C4 (amended): for `degree ≥ 1` and `num_ctrlpts ≥ degree + 1`,
`autogen_knotvector` returns `degree+1` copies of 0, then
`num_segments - 1 = num_ctrlpts - degree - 1` interior knots uniformly
spaced in the open interval (the `i`-th interior knot is
`(i+1) / (num_ctrlpts - degree)`), then `degree+1` copies of 1, for a
total length of `degree + num_ctrlpts + 1` (which is the number of
knots `m + 1` for `m = degree + num_ctrlpts`). -/
theorem autogen_knotvector_clamped_uniform (degree num_ctrlpts : ℕ)
    (hdeg : 1 ≤ degree) (hnum : degree + 1 ≤ num_ctrlpts) :
    autogen_knotvector degree num_ctrlpts =
      some (List.replicate (degree + 1) (0 : ℚ) ++
        (List.range (num_ctrlpts - (degree + 1))).map
          (fun i : ℕ =>
            ((i : ℚ) + 1) / ((num_ctrlpts : ℚ) - (degree : ℚ))) ++
        List.replicate (degree + 1) (1 : ℚ)) ∧
    (autogen_knotvector degree num_ctrlpts).map List.length =
      some (degree + num_ctrlpts + 1) := by
  have h0 : ¬(degree = 0 ∨ num_ctrlpts = 0) := by omega
  have hseg : ((degree + num_ctrlpts + 1 : ℕ) : ℤ) -
      ((degree : ℤ) + 1) * 2 + 1 = (num_ctrlpts : ℤ) - (degree : ℤ) := by
    push_cast
    ring
  have hseg0 : ((degree + num_ctrlpts + 1 : ℕ) : ℤ) -
      ((degree : ℤ) + 1) * 2 + 1 ≠ 0 := by
    rw [hseg]
    have : (degree : ℤ) < (num_ctrlpts : ℤ) := by exact_mod_cast (by omega)
    omega
  have hmid : degree + num_ctrlpts + 1 - (degree + 1) - (degree + 1) =
      num_ctrlpts - (degree + 1) := by omega
  have hlast : degree + num_ctrlpts + 1 -
      ((degree + 1) + (num_ctrlpts - (degree + 1))) = degree + 1 := by omega
  have hmain : autogen_knotvector degree num_ctrlpts =
      some (List.replicate (degree + 1) (0 : ℚ) ++
        (List.range (num_ctrlpts - (degree + 1))).map
          (fun i : ℕ =>
            ((i : ℚ) + 1) / ((num_ctrlpts : ℚ) - (degree : ℚ))) ++
        List.replicate (degree + 1) (1 : ℚ)) := by
    unfold autogen_knotvector
    rw [if_neg h0]
    simp only [hmid, hlast, hseg, midKnots_eq_map]
    rw [if_neg (by rw [hseg] at hseg0; exact_mod_cast hseg0)]
    have hcast : (((num_ctrlpts : ℤ) - (degree : ℤ) : ℤ) : ℚ) =
        (num_ctrlpts : ℚ) - (degree : ℚ) := by push_cast; ring
    refine congrArg _ (congrArg₂ _ (congrArg _ (List.map_congr_left ?_)) rfl)
    intro i _
    rw [hcast]
    have hD : (num_ctrlpts : ℚ) - (degree : ℚ) ≠ 0 := by
      have : (degree : ℚ) < (num_ctrlpts : ℚ) := by exact_mod_cast (by omega)
      intro h
      nlinarith
    field_simp
    ring
  refine ⟨hmain, ?_⟩
  rw [hmain]
  simp only [Option.map_some', List.length_append, List.length_replicate,
    List.length_map, List.length_range, Option.some.injEq]
  omega

/-- Witness for C4 (amended) at `degree = 1`, `num_ctrlpts = 3`:
the result is `[0, 0, 1/2, 1, 1]`. -/
theorem autogen_knotvector_clamped_uniform_witness :
    autogen_knotvector 1 3 =
      some (List.replicate (1 + 1) (0 : ℚ) ++
        (List.range (3 - (1 + 1))).map
          (fun i : ℕ => ((i : ℚ) + 1) / (((3 : ℕ) : ℚ) - ((1 : ℕ) : ℚ))) ++
        List.replicate (1 + 1) (1 : ℚ)) ∧
    (autogen_knotvector 1 3).map List.length = some (1 + 3 + 1) :=
  autogen_knotvector_clamped_uniform 1 3 (by decide) (by decide)

/-! ### Claim C5: autogen_knotvector with no interior segments -/

/-- Counterexample to C5 as stated: at `degree = 1`, `num_ctrlpts = 1`
(both nonzero) the computed `num_segments` is `0 ≤ 0`, yet the code
raises `ZeroDivisionError` at `spacing = (knot_max - knot_min) /
num_segments` instead of succeeding. -/
theorem autogen_knotvector_zero_segments_counterexample :
    ((1 + 1 + 1 : ℤ) - ((1 : ℤ) + 1) * 2 + 1 ≤ 0) ∧
    autogen_knotvector 1 1 = none := by
  norm_num [autogen_knotvector]

/-- C5 (amended): for nonzero inputs with `num_ctrlpts < degree`
(`num_segments < 0`), `autogen_knotvector` succeeds with no interior
knots, returning `degree+1` copies of 0 followed by `num_ctrlpts`
copies of 1; in the remaining `num_segments ≤ 0` case,
`num_ctrlpts = degree` (`num_segments = 0`), it raises
`ZeroDivisionError`. -/
theorem autogen_knotvector_no_interior (degree num_ctrlpts : ℕ)
    (hdeg : 1 ≤ degree) (hnum : 1 ≤ num_ctrlpts)
    (hlt : num_ctrlpts < degree) :
    autogen_knotvector degree num_ctrlpts =
      some (List.replicate (degree + 1) (0 : ℚ) ++
        List.replicate num_ctrlpts (1 : ℚ)) ∧
    autogen_knotvector degree degree = none := by
  constructor
  · have h0 : ¬(degree = 0 ∨ num_ctrlpts = 0) := by omega
    have hseg : ((degree + num_ctrlpts + 1 : ℕ) : ℤ) -
        ((degree : ℤ) + 1) * 2 + 1 = (num_ctrlpts : ℤ) - (degree : ℤ) := by
      push_cast
      ring
    have hseg0 : ((degree + num_ctrlpts + 1 : ℕ) : ℤ) -
        ((degree : ℤ) + 1) * 2 + 1 ≠ 0 := by
      rw [hseg]
      have : (num_ctrlpts : ℤ) < (degree : ℤ) := by exact_mod_cast hlt
      omega
    have hmid : num_ctrlpts - (degree + 1) = 0 := by omega
    have hlast : degree + num_ctrlpts + 1 - (degree + 1 + 0) =
        num_ctrlpts := by omega
    unfold autogen_knotvector
    rw [if_neg h0, if_neg hseg0]
    simp [hmid, hlast, midKnots]
  · have h0 : ¬(degree = 0 ∨ degree = 0) := by omega
    have hseg : ((degree + degree + 1 : ℕ) : ℤ) -
        ((degree : ℤ) + 1) * 2 + 1 = 0 := by push_cast; ring
    unfold autogen_knotvector
    rw [if_neg h0, if_pos hseg]

/-- Witness for C5 (amended) at `degree = 2`, `num_ctrlpts = 1`:
the result is `[0, 0, 0, 1]`. -/
theorem autogen_knotvector_no_interior_witness :
    autogen_knotvector 2 1 =
      some (List.replicate (2 + 1) (0 : ℚ) ++
        List.replicate 1 (1 : ℚ)) ∧
    autogen_knotvector 2 2 = none :=
  autogen_knotvector_no_interior 2 1 (by decide) (by decide) (by decide)

/-! ### Claim C2: basis_functions_ders with order > degree -/

/-- C2 concerns a code bug: the `ders` table is allocated with
`min(degree, order) + 1` rows (line 146), showing the intent to
truncate, but the derivative loop runs `k` up to `order` (line 159) and
writes `ders[k][r]` (line 180), so any call with `order > degree`
raises `IndexError` instead of returning the truncated table.  At
`degree = 1`, `knotvector = [0,0,1,1]`, `span = 1`, `knot = 1/2` the
call with `order = 2` fails while the same call with `order = 1`
succeeds. -/
theorem basis_functions_ders_high_order_crash :
    basis_functions_ders 1 [0, 0, 1, 1] 1 (1/2) 2 = none ∧
    basis_functions_ders 1 [0, 0, 1, 1] 1 (1/2) 1 =
      some [[1/2, 1/2], [-1, 1]] := by
  have hr1 : List.range 1 = [0] := rfl
  have hr2 : List.range 2 = [0, 1] := rfl
  have hr11 : List.range' 1 1 = [1] := rfl
  have hr12 : List.range' 1 2 = [1, 2] := rfl
  constructor <;>
    norm_num [basis_functions_ders, nduTable, nduRow, nduRowStep, upd2,
      rightv, leftv, dersRStep, dersKStep, zndu, zrange, dersSet, dersScale,
      hr1, hr2, hr11, hr12, List.foldlM, List.replicate_succ, List.getD]

end NurbsUtil
